import Mathlib

/-!
Verification of the dependency-update checker (`check-dependencies.js`).

JavaScript strings are modelled as `List Char`; JS objects used as string
maps are modelled as association lists in key-insertion order, which is the
iteration order of `Object.keys` for the non-numeric keys that occur here.
Outbound HTTP calls (`axios.get` against the npm registry, the GitHub
releases probe) are modelled as oracle functions supplied as parameters:
`fetch : Str → Option RegistryInfo` (with `none` for a failed request, as
`getPackageInfo` catches every error and returns `null`), and
`hasReleases : Str → Bool` (with `false` for both "no releases" and a
failed probe, as `checkReleases` catches every error and returns `false`).
-/

/-- A JavaScript string, modelled as its list of characters. -/
abbrev Str := List Char

/-- `String.split` of JavaScript on a single-character separator:
`"a@b".split('@') = ["a","b"]`, `"@a".split('@') = ["","a"]`.
The result is always nonempty. -/
def jsSplit (sep : Char) : Str → List Str
  | [] => [[]]
  | x :: t =>
    let r := jsSplit sep t
    if x == sep then [] :: r
    else (x :: r.headD []) :: r.tail

/-- `String.prototype.replace` of JavaScript with a plain-string pattern:
replaces the first (leftmost) occurrence of `pat` by `rep`; a string with
no occurrence is returned unchanged. -/
def replaceFirst (pat rep : Str) : Str → Str
  | [] => if pat.isEmpty then rep else []
  | c :: t =>
    if pat.isPrefixOf (c :: t) then rep ++ (c :: t).drop pat.length
    else c :: replaceFirst pat rep t

/-- `pat` occurs as a contiguous substring of `s`. -/
def hasSubstr (pat : Str) : Str → Bool
  | [] => pat.isEmpty
  | c :: t => pat.isPrefixOf (c :: t) || hasSubstr pat t

/-- JavaScript truthiness of an optional string field: `undefined` and the
empty string are falsy, every other string is truthy. -/
def jsTruthy : Option Str → Bool
  | none => false
  | some s => !s.isEmpty

/-- `normalizeVersion` from the source: `version.replace(/^[\^~]/, '')`
strips a single leading caret or tilde, anything else is unchanged. -/
def normalizeVersion : Str → Str
  | [] => []
  | c :: t => if c == '^' || c == '~' then t else c :: t

/-- Decimal value of a digit string (used after the all-digit check). -/
def digitsToNat (s : Str) : Nat :=
  s.foldl (fun n c => n * 10 + (c.toNat - '0'.toNat)) 0

/-- One numeric component of a semantic version: nonempty, all digits,
no leading zero (except the single digit `0`). -/
def parseNumComponent (s : Str) : Option Nat :=
  if !s.isEmpty && s.all Char.isDigit && (s.length == 1 || !(s.head? == some '0'))
  then some (digitsToNat s) else none

/-- Models the strict parse of the external `semver` dependency, restricted
to what the program consumes: an optional leading `v`, then a
`major.minor.patch` core of numeric components, optionally followed by a
nonempty pre-release (after `-`) or build (after `+`) suffix. Returns
`none` when the string is not a valid three-component version, as
`semver.parse` returns `null`. -/
def semverParse (s : Str) : Option (Nat × Nat × Nat) :=
  let s' := match s with
    | 'v' :: t => t
    | other => other
  let core := s'.takeWhile (fun c => !(c == '-') && !(c == '+'))
  let suffix := s'.dropWhile (fun c => !(c == '-') && !(c == '+'))
  if suffix.isEmpty || suffix.length > 1 then
    match jsSplit '.' core with
    | [ma, mi, pa] =>
      match parseNumComponent ma, parseNumComponent mi, parseNumComponent pa with
      | some a, some b, some c => some (a, b, c)
      | _, _, _ => none
    | _ => none
  else none

/-- `calculateVersionDifference` from the source: parse both versions with
`semver.parse`; if either fails, the distance is `0`, otherwise it is
`majorDiff * 10000 + minorDiff * 100 + patchDiff`. -/
def calculateVersionDifference (currentVersion latestVersion : Str) : Int :=
  match semverParse currentVersion, semverParse latestVersion with
  | some (cM, cm, cp), some (lM, lm, lp) =>
    ((lM : Int) - cM) * 10000 + ((lm : Int) - cm) * 100 + ((lp : Int) - cp)
  | _, _ => 0

/-- `convertSshUrlToHttps` from the source: rewrites the three transport
forms `ssh://git@github.com/...`, `git@github.com:...` and
`git://github.com/...` (the GitHub host only) to `https://github.com/...`;
any other string is returned unchanged. -/
def convertSshUrlToHttps (sshUrl : Str) : Str :=
  if "ssh://git@github.com/".toList.isPrefixOf sshUrl then
    replaceFirst "ssh://git@github.com/".toList "https://github.com/".toList sshUrl
  else if "git@github.com:".toList.isPrefixOf sshUrl then
    replaceFirst "git@github.com:".toList "https://github.com/".toList sshUrl
  else if "git://github.com/".toList.isPrefixOf sshUrl then
    replaceFirst "git://github.com/".toList "https://github.com/".toList sshUrl
  else sshUrl

/-- The repository-URL normalization applied on line 116 of the source:
`convertSshUrlToHttps(url.replace('git+', '').replace('.git', ''))`.
Each `replace` removes the first occurrence of its pattern. -/
def normalizeRepoUrl (u : Str) : Str :=
  convertSshUrlToHttps (replaceFirst ".git".toList [] (replaceFirst "git+".toList [] u))

/-- The registry metadata extracted by `getPackageInfo` from a successful
npm registry response; `repositoryUrl` and `homepageUrl` may be absent. -/
structure RegistryInfo where
  latestVersion : Str
  repositoryUrl : Option Str
  homepageUrl : Option Str
deriving DecidableEq, Repr

/-- One row of the program's output, as built in `getDependencyUpdates`. -/
structure UpdateRecord where
  pkg : Str
  currentVersion : Str
  latestVersion : Str
  docUrl : Str
deriving DecidableEq, Repr

/-- The constructed npm package-versions page URL,
`https://www.npmjs.com/package/<pkg>?activeTab=versions`. -/
def npmVersionsUrl (pkg : Str) : Str :=
  "https://www.npmjs.com/package/".toList ++ pkg ++ "?activeTab=versions".toList

/-- The doc-URL fallback chain of `getDependencyUpdates` (source lines
115-133): if the registry reported a (truthy) repository URL, normalize it;
when the normalized URL is nonempty, probe for releases and use
`<repo>/releases` on success and the npm versions page otherwise (a probe
failure is also `false`, and the enclosing catch yields the same npm page);
when there is no usable repository URL, use a truthy homepage if present,
else the npm versions page. -/
def resolveDocUrl (pkg : Str) (info : RegistryInfo) (hasReleases : Str → Bool) : Str :=
  let repoUrl :=
    if jsTruthy info.repositoryUrl then normalizeRepoUrl (info.repositoryUrl.getD [])
    else []
  if !repoUrl.isEmpty then
    if hasReleases repoUrl then repoUrl ++ "/releases".toList
    else npmVersionsUrl pkg
  else if jsTruthy info.homepageUrl then info.homepageUrl.getD []
  else npmVersionsUrl pkg

/-- The body of the `Promise.all` map in `getDependencyUpdates`: normalize
the declared version and fetch registry info; a failed fetch (`null`) or an
up-to-date package yields no record (the callback returns `undefined`),
otherwise an update record with the resolved doc URL. -/
def emitUpdate (fetch : Str → Option RegistryInfo) (hasReleases : Str → Bool)
    (pc : Str × Str) : Option UpdateRecord :=
  match fetch pc.1 with
  | none => none
  | some info =>
    let n := normalizeVersion pc.2
    if info.latestVersion ≠ n then
      some { pkg := pc.1, currentVersion := n, latestVersion := info.latestVersion,
             docUrl := resolveDocUrl pc.1 info hasReleases }
    else none

/-- `getDependencyUpdates` from the source: map `emitUpdate` over the
dependency entries and drop the `undefined` results
(`updates.filter(update => update)`). `Promise.all` keeps input order. -/
def getDependencyUpdates (deps : List (Str × Str)) (fetch : Str → Option RegistryInfo)
    (hasReleases : Str → Bool) : List UpdateRecord :=
  deps.filterMap (emitUpdate fetch hasReleases)

/-- Lookup of a key in a parsed yarn-lock object (`parsedYarnLock[key]`);
keys of a JS object are unique, so this is first-match association lookup. -/
def lookupLock (lock : List (Str × Str)) (key : Str) : Option Str :=
  (lock.find? (fun e => e.1 == key)).map (·.2)

/-- The match condition of the fallback scan in `getPackagesFromYarnLock`:
`const [lockedPkg] = key.split('@').filter(Boolean)` followed by
`pkg === lockedPkg` — the first nonempty `@`-separated segment of the
compound key must equal the declared name. -/
def fallbackMatches (pkg : Str) (key : Str) : Bool :=
  ((jsSplit '@' key).filter (fun s => !s.isEmpty)).head? == some pkg

/-- Resolution of one declared dependency in `getPackagesFromYarnLock`:
try the exact compound key `pkg@range`; if absent, run the `forEach` scan,
which assigns `dependencies[pkg]` anew on every structural match, so the
assignment of the last matching lock entry survives. -/
def resolveOne (lock : List (Str × Str)) (pkg range : Str) : Option Str :=
  match lookupLock lock (pkg ++ '@' :: range) with
  | some v => some v
  | none =>
    lock.foldl (fun acc e => if fallbackMatches pkg e.1 then some e.2 else acc) none

/-- `getPackagesFromYarnLock` from the source, with the file read and
`@yarnpkg/lockfile` parse modelled as `parsedLock : Option _`: `none` when
the lockfile is missing or the parse throws (both return `null`), `some`
entries in object-key order otherwise. Declared names that resolve to
nothing are omitted from the result map. -/
def getPackagesFromYarnLock (parsedLock : Option (List (Str × Str)))
    (deps : List (Str × Str)) : Option (List (Str × Str)) :=
  match parsedLock with
  | none => none
  | some lock =>
    some (deps.filterMap (fun pc => (resolveOne lock pc.1 pc.2).map (fun v => (pc.1, v))))

/-- The source selection in `main`: `if (yarnLockDependencies)` — any
non-`null` resolver result (a JS object, truthy even when empty) makes the
run use the lockfile versions, otherwise the manifest's declared versions. -/
def mainUpdates (parsedLock : Option (List (Str × Str))) (manifestDeps : List (Str × Str))
    (fetch : Str → Option RegistryInfo) (hasReleases : Str → Bool) : List UpdateRecord :=
  match getPackagesFromYarnLock parsedLock manifestDeps with
  | some lockDeps => getDependencyUpdates lockDeps fetch hasReleases
  | none => getDependencyUpdates manifestDeps fetch hasReleases

/-- Version distance of one update record, as computed inside the sort
comparator. -/
def versionDiff (r : UpdateRecord) : Int :=
  calculateVersionDifference r.currentVersion r.latestVersion

/-- Insertion step of the stable descending sort: a record is placed after
every record with a strictly larger distance and before the first record
with a smaller-or-equal distance. -/
def insertByDiff (a : UpdateRecord) : List UpdateRecord → List UpdateRecord
  | [] => [a]
  | b :: t => if versionDiff a < versionDiff b then b :: insertByDiff a t else a :: b :: t

/-- `sortUpdates` from the source: `updates.sort((a, b) => diffB - diffA)`.
`Array.prototype.sort` is stable (required by ECMAScript 2019 and by the
Node ≥ 12 engines the README requires), and a stable sort's output is the
unique permutation that is ordered by the comparator and keeps
equal-comparing elements in input order; this insertion sort produces
exactly that list. -/
def sortUpdates (updates : List UpdateRecord) : List UpdateRecord :=
  updates.foldr insertByDiff []

/-- The partition performed in `main`:
`sorted.filter(u => priorityPackages.includes(u.pkg))` and
`sorted.filter(u => !priorityPackages.includes(u.pkg))`. -/
def partitionUpdates (priorityPackages : List Str) (updates : List UpdateRecord) :
    List UpdateRecord × List UpdateRecord :=
  (updates.filter (fun u => priorityPackages.contains u.pkg),
   updates.filter (fun u => !priorityPackages.contains u.pkg))

/-! ### Helper lemmas -/

theorem jsSplit_ne_nil (sep : Char) (s : Str) : jsSplit sep s ≠ [] := by
  cases s with
  | nil => simp [jsSplit]
  | cons x t => simp only [jsSplit]; split <;> simp

theorem sep_not_mem_of_mem_jsSplit (sep : Char) :
    ∀ (s : Str) (x : Str), x ∈ jsSplit sep s → sep ∉ x := by
  intro s
  induction s with
  | nil =>
    intro x hx
    simp [jsSplit] at hx
    simp [hx]
  | cons y t ih =>
    intro x hx
    simp only [jsSplit] at hx
    by_cases hy : (y == sep) = true
    · simp [hy] at hx
      rcases hx with rfl | hx
      · simp
      · exact ih x hx
    · simp [hy] at hx
      obtain ⟨h, rest, hr⟩ := List.exists_cons_of_ne_nil (jsSplit_ne_nil sep t)
      rcases hx with rfl | hx
      · intro hmem
        simp only [List.mem_cons] at hmem
        rcases hmem with rfl | hmem
        · exact hy (by simp)
        · have : sep ∉ (jsSplit sep t).head?.getD [] := by
            rw [hr]; exact ih h (by rw [hr]; exact List.mem_cons_self h rest)
          exact this hmem
      · have : x ∈ jsSplit sep t := by
          rw [hr]
          exact List.mem_cons_of_mem h (by rw [hr] at hx; exact hx)
        exact ih x this

theorem fallbackMatches_scoped_false (pkg : Str) (h : pkg.head? = some '@') (key : Str) :
    fallbackMatches pkg key = false := by
  unfold fallbackMatches
  cases ho : ((jsSplit '@' key).filter (fun s => !s.isEmpty)).head? with
  | none => rfl
  | some x =>
    have hx : x ∈ (jsSplit '@' key).filter (fun s => !s.isEmpty) := by
      cases hl : (jsSplit '@' key).filter (fun s => !s.isEmpty) with
      | nil => rw [hl] at ho; cases ho
      | cons a as =>
        rw [hl] at ho
        have : a = x := by injection ho
        rw [this]; exact List.mem_cons_self x as
    have hnotat : '@' ∉ x :=
      sep_not_mem_of_mem_jsSplit '@' key x (List.mem_filter.1 hx).1
    have hxp : x ≠ pkg := by
      intro e
      cases pkg with
      | nil => cases h
      | cons c p =>
        have : c = '@' := by injection h
        exact hnotat (by rw [e, this]; exact List.mem_cons_self '@' p)
    rw [beq_eq_false_iff_ne]
    intro he
    exact hxp (by injection he)

theorem foldl_overwrite_eq_find_reverse (cond : Str × Str → Bool) :
    ∀ (l : List (Str × Str)) (acc : Option Str),
      l.foldl (fun acc e => if cond e then some e.2 else acc) acc
        = (l.reverse.find? cond).elim acc (fun e => some e.2) := by
  intro l
  induction l with
  | nil => intro acc; rfl
  | cons e t ih =>
    intro acc
    rw [List.foldl_cons, ih]
    rw [List.reverse_cons, List.find?_append]
    cases hf : t.reverse.find? cond with
    | some x => simp [hf]
    | none =>
      by_cases hc : cond e = true
      · simp [hf, List.find?_cons, hc]
      · simp [hf, List.find?_cons, hc]

theorem insertByDiff_perm (a : UpdateRecord) (l : List UpdateRecord) :
    (insertByDiff a l).Perm (a :: l) := by
  induction l with
  | nil => exact List.Perm.refl _
  | cons b t ih =>
    simp only [insertByDiff]
    split
    · exact (ih.cons b).trans (List.Perm.swap a b t)
    · exact List.Perm.refl _

theorem mem_insertByDiff {x a : UpdateRecord} {l : List UpdateRecord} :
    x ∈ insertByDiff a l ↔ x = a ∨ x ∈ l := by
  rw [(insertByDiff_perm a l).mem_iff]
  simp

theorem insertByDiff_pairwise {a : UpdateRecord} {l : List UpdateRecord}
    (h : l.Pairwise (fun x y => versionDiff y ≤ versionDiff x)) :
    (insertByDiff a l).Pairwise (fun x y => versionDiff y ≤ versionDiff x) := by
  induction l with
  | nil => simp [insertByDiff]
  | cons b t ih =>
    rw [List.pairwise_cons] at h
    obtain ⟨hb, ht⟩ := h
    simp only [insertByDiff]
    split
    · rename_i hlt
      rw [List.pairwise_cons]
      refine ⟨?_, ih ht⟩
      intro z hz
      rcases mem_insertByDiff.1 hz with rfl | hz
      · exact le_of_lt hlt
      · exact hb z hz
    · rename_i hge
      rw [List.pairwise_cons]
      refine ⟨?_, by rw [List.pairwise_cons]; exact ⟨hb, ht⟩⟩
      intro z hz
      rcases List.mem_cons.1 hz with rfl | hz
      · exact not_lt.1 hge
      · exact le_trans (hb z hz) (not_lt.1 hge)

theorem filter_insertByDiff (a : UpdateRecord) (l : List UpdateRecord) (d : Int) :
    (insertByDiff a l).filter (fun r => versionDiff r == d)
      = if versionDiff a == d
        then a :: l.filter (fun r => versionDiff r == d)
        else l.filter (fun r => versionDiff r == d) := by
  induction l with
  | nil =>
    by_cases h : (versionDiff a == d) = true <;> simp [insertByDiff, h]
  | cons b t ih =>
    simp only [insertByDiff]
    by_cases hlt : versionDiff a < versionDiff b
    · rw [if_pos hlt]
      by_cases hb : (versionDiff b == d) = true
      · have had : (versionDiff a == d) = false := by
          rw [beq_eq_false_iff_ne]
          intro e
          exact absurd hlt (by rw [e, ← eq_of_beq hb]; exact lt_irrefl _)
        simp [List.filter_cons, hb, had, ih]
      · by_cases had : (versionDiff a == d) = true
        · simp [List.filter_cons, hb, had, ih]
        · simp [List.filter_cons, hb, had, ih]
    · rw [if_neg hlt]
      by_cases had : (versionDiff a == d) = true
      · simp [List.filter_cons, had]
      · simp [List.filter_cons, had]

/-! ### Claim theorems -/

/-- C4: `sortUpdates` returns a permutation of its input ordered by
descending version-distance, equal-distance records keep their input order
(for every distance value, filtering the output by that distance gives the
input's records in input order — the stability of `Array.prototype.sort`),
and on records with distances `[5, 20000, 100]` the output distances are
`[20000, 100, 5]`. -/
theorem sortUpdates_spec (updates : List UpdateRecord) :
    (sortUpdates updates).Perm updates
    ∧ (sortUpdates updates).Pairwise (fun x y => versionDiff y ≤ versionDiff x)
    ∧ (∀ d : Int, (sortUpdates updates).filter (fun r => versionDiff r == d)
        = updates.filter (fun r => versionDiff r == d))
    ∧ sortUpdates
        [⟨"p1".toList, "1.0.0".toList, "1.0.5".toList, "u1".toList⟩,
         ⟨"p2".toList, "1.0.0".toList, "3.0.0".toList, "u2".toList⟩,
         ⟨"p3".toList, "1.0.0".toList, "1.1.0".toList, "u3".toList⟩]
      = [⟨"p2".toList, "1.0.0".toList, "3.0.0".toList, "u2".toList⟩,
         ⟨"p3".toList, "1.0.0".toList, "1.1.0".toList, "u3".toList⟩,
         ⟨"p1".toList, "1.0.0".toList, "1.0.5".toList, "u1".toList⟩] := by
  refine ⟨?_, ?_, ?_, by decide⟩
  · induction updates with
    | nil => exact List.Perm.refl _
    | cons x t ih => exact (insertByDiff_perm x (sortUpdates t)).trans (ih.cons x)
  · induction updates with
    | nil => simp [sortUpdates]
    | cons x t ih => exact insertByDiff_pairwise ih
  · intro d
    induction updates with
    | nil => rfl
    | cons x t ih =>
      rw [show sortUpdates (x :: t) = insertByDiff x (sortUpdates t) from rfl,
        filter_insertByDiff, ih, List.filter_cons]

/-- C5: partitioning the sorted update records by membership of the package
name in the priority set yields two lists that together are a permutation
of the input, whose membership covers the input exactly, that share no
record, and that are each sublists of the input (hence preserve any
pairwise ordering, in particular the sorted order). -/
theorem partitionUpdates_spec (priorityPackages : List Str) (updates : List UpdateRecord) :
    ((partitionUpdates priorityPackages updates).1
        ++ (partitionUpdates priorityPackages updates).2).Perm updates
    ∧ (∀ x, x ∈ updates ↔
        (x ∈ (partitionUpdates priorityPackages updates).1
          ∨ x ∈ (partitionUpdates priorityPackages updates).2))
    ∧ (∀ x, ¬(x ∈ (partitionUpdates priorityPackages updates).1
          ∧ x ∈ (partitionUpdates priorityPackages updates).2))
    ∧ (partitionUpdates priorityPackages updates).1.Sublist updates
    ∧ (partitionUpdates priorityPackages updates).2.Sublist updates
    ∧ (∀ R : UpdateRecord → UpdateRecord → Prop, updates.Pairwise R →
        (partitionUpdates priorityPackages updates).1.Pairwise R
          ∧ (partitionUpdates priorityPackages updates).2.Pairwise R) := by
  refine ⟨?_, ?_, ?_, List.filter_sublist updates, List.filter_sublist updates, ?_⟩
  · simpa [partitionUpdates] using
      List.filter_append_perm (fun u => priorityPackages.contains u.pkg) updates
  · intro x
    simp only [partitionUpdates, List.mem_filter]
    by_cases hc : priorityPackages.contains x.pkg = true <;> simp [hc] <;> tauto
  · intro x
    simp only [partitionUpdates, List.mem_filter]
    rintro ⟨⟨-, h1⟩, ⟨-, h2⟩⟩
    rw [h1] at h2
    cases h2
  · intro R hR
    exact ⟨hR.sublist (List.filter_sublist updates), hR.sublist (List.filter_sublist updates)⟩

/-- Witness for C5's membership/disjointness parts at a concrete input. -/
theorem partitionUpdates_spec_witness :
    ¬(⟨"react".toList, "1.0.0".toList, "2.0.0".toList, "u".toList⟩
        ∈ (partitionUpdates ["react".toList]
            [⟨"react".toList, "1.0.0".toList, "2.0.0".toList, "u".toList⟩]).1
      ∧ (⟨"react".toList, "1.0.0".toList, "2.0.0".toList, "u".toList⟩ : UpdateRecord)
        ∈ (partitionUpdates ["react".toList]
            [⟨"react".toList, "1.0.0".toList, "2.0.0".toList, "u".toList⟩]).2) :=
  (partitionUpdates_spec ["react".toList]
    [⟨"react".toList, "1.0.0".toList, "2.0.0".toList, "u".toList⟩]).2.2.1 _

/-- C2 is false on the code: with lock entries `a@^1.0.0 → 1.0.0` and
`a@^2.0.0 → 2.0.0` and declared range `^3.0.0` (no exact compound key), the
fallback scan overwrites on each structural match and returns the last
matching entry's version `2.0.0`, not the first match's `1.0.0`. -/
theorem lockfile_fallback_last_not_first_cex :
    resolveOne [("a@^1.0.0".toList, "1.0.0".toList), ("a@^2.0.0".toList, "2.0.0".toList)]
        "a".toList "^3.0.0".toList = some "2.0.0".toList
    ∧ (List.find? (fun e => fallbackMatches "a".toList e.1)
        [("a@^1.0.0".toList, "1.0.0".toList), ("a@^2.0.0".toList, "2.0.0".toList)]).map (·.2)
        = some "1.0.0".toList
    ∧ "2.0.0".toList ≠ "1.0.0".toList := by decide

/-- C2 (amended): the resolver first tries the exact compound key
`name@declaredRange` and returns its version when present; if that key is
absent, the `forEach` scan assigns on every structural match, so the
resolver returns the version of the last matching entry in iteration order
(`none` when no entry matches). -/
theorem resolveOne_exact_then_last_match (lock : List (Str × Str)) (pkg range : Str) :
    (∀ v, lookupLock lock (pkg ++ '@' :: range) = some v →
      resolveOne lock pkg range = some v)
    ∧ (lookupLock lock (pkg ++ '@' :: range) = none →
      resolveOne lock pkg range
        = (lock.reverse.find? (fun e => fallbackMatches pkg e.1)).map (·.2)) := by
  constructor
  · intro v hv
    simp [resolveOne, hv]
  · intro hnone
    simp only [resolveOne, hnone]
    rw [foldl_overwrite_eq_find_reverse]
    cases hf : lock.reverse.find? (fun e => fallbackMatches pkg e.1) <;> simp [hf]

/-- Witness for C2 (amended) at the counterexample's lockfile. -/
theorem resolveOne_exact_then_last_match_witness :
    resolveOne [("a@^1.0.0".toList, "1.0.0".toList), ("a@^2.0.0".toList, "2.0.0".toList)]
        "a".toList "^3.0.0".toList
      = (([("a@^1.0.0".toList, "1.0.0".toList),
           ("a@^2.0.0".toList, "2.0.0".toList)].reverse.find?
          (fun e => fallbackMatches "a".toList e.1)).map (·.2)) :=
  (resolveOne_exact_then_last_match
    [("a@^1.0.0".toList, "1.0.0".toList), ("a@^2.0.0".toList, "2.0.0".toList)]
    "a".toList "^3.0.0".toList).2 (by decide)

/-- C3: for every pair of version strings, the version-distance is
`(latest.major - current.major) * 10000 + (latest.minor - current.minor) * 100
+ (latest.patch - current.patch)` when both parse as three-component
semantic versions, and exactly `0` when either fails to parse. -/
theorem calculateVersionDifference_spec (c l : Str) :
    (∀ cM cm cp lM lm lp, semverParse c = some (cM, cm, cp) →
      semverParse l = some (lM, lm, lp) →
      calculateVersionDifference c l =
        ((lM : Int) - cM) * 10000 + ((lm : Int) - cm) * 100 + ((lp : Int) - cp))
    ∧ ((semverParse c = none ∨ semverParse l = none) →
        calculateVersionDifference c l = 0) := by
  constructor
  · intro cM cm cp lM lm lp hc hl
    simp [calculateVersionDifference, hc, hl]
  · intro h
    rcases h with h | h
    · simp [calculateVersionDifference, h]
    · rcases hc : semverParse c with _ | ⟨⟨a, b, d⟩⟩ <;>
        simp [calculateVersionDifference, hc, h]

/-- Witness for C3 at `current = "1.2.3"`, `latest = "2.3.4"`. -/
theorem calculateVersionDifference_spec_witness :
    calculateVersionDifference "1.2.3".toList "2.3.4".toList = 10101 := by
  have h := (calculateVersionDifference_spec "1.2.3".toList "2.3.4".toList).1
    1 2 3 2 3 4 (by decide) (by decide)
  norm_num at h
  exact h

/-- C8: `normalizeVersion` strips a single leading caret or tilde and passes
anything else through unchanged, and on every range-prefixed (single leading
`^`/`~`) or bare version string it is idempotent. -/
theorem normalizeVersion_idempotent (v : Str)
    (h : ∃ p w, v = p ++ w ∧ (p = [] ∨ p = ['^'] ∨ p = ['~'])
        ∧ w.head? ≠ some '^' ∧ w.head? ≠ some '~') :
    normalizeVersion (normalizeVersion v) = normalizeVersion v
    ∧ (∀ w, normalizeVersion ('^' :: w) = w)
    ∧ (∀ w, normalizeVersion ('~' :: w) = w)
    ∧ (∀ w : Str, w.head? ≠ some '^' → w.head? ≠ some '~' → normalizeVersion w = w) := by
  have hbare : ∀ w : Str, w.head? ≠ some '^' → w.head? ≠ some '~' → normalizeVersion w = w := by
    intro w h1 h2
    cases w with
    | nil => rfl
    | cons c t =>
      have hc1 : c ≠ '^' := fun e => h1 (by rw [e]; rfl)
      have hc2 : c ≠ '~' := fun e => h2 (by rw [e]; rfl)
      have hcond : (c == '^' || c == '~') = false := by simp [hc1, hc2]
      simp [normalizeVersion, hcond]
  refine ⟨?_, fun w => by simp [normalizeVersion], fun w => by simp [normalizeVersion], hbare⟩
  obtain ⟨p, w, rfl, hp, h1, h2⟩ := h
  rcases hp with rfl | rfl | rfl
  · simp only [List.nil_append]
    rw [hbare w h1 h2, hbare w h1 h2]
  · have hone : normalizeVersion ('^' :: w) = w := by simp [normalizeVersion]
    rw [List.singleton_append, hone, hbare w h1 h2]
  · have hone : normalizeVersion ('~' :: w) = w := by simp [normalizeVersion]
    rw [List.singleton_append, hone, hbare w h1 h2]

/-- Witness for C8 at `v = "^1.2.3"`. -/
theorem normalizeVersion_idempotent_witness :
    normalizeVersion (normalizeVersion "^1.2.3".toList) = normalizeVersion "^1.2.3".toList :=
  (normalizeVersion_idempotent "^1.2.3".toList
    ⟨['^'], "1.2.3".toList, by decide, Or.inr (Or.inl rfl), by decide, by decide⟩).1

/-- C9: a missing or unparseable lockfile makes the resolver return the
distinguished `none` (never an empty map — a parsed lockfile always yields
`some`), and the run then falls back to the manifest's declared versions;
the parse failure is absorbed (`mainUpdates` still produces its output). -/
theorem lockfile_unavailable_fallback (deps manifestDeps : List (Str × Str))
    (fetch : Str → Option RegistryInfo) (hasReleases : Str → Bool) :
    getPackagesFromYarnLock none deps = none
    ∧ (∀ lock, getPackagesFromYarnLock (some lock) deps ≠ none)
    ∧ mainUpdates none manifestDeps fetch hasReleases
        = getDependencyUpdates manifestDeps fetch hasReleases :=
  ⟨rfl, fun lock => by simp [getPackagesFromYarnLock], rfl⟩

/-- Witness for C9: a parsed-but-empty lockfile is distinct from the
unavailability signal. -/
theorem lockfile_unavailable_fallback_witness :
    getPackagesFromYarnLock (some []) [] ≠ none :=
  (lockfile_unavailable_fallback [] [] (fun _ => none) (fun _ => false)).2.1 []

/-- C10: a declared name that begins with `@` (a scoped package) is never
matched by the name-only fallback scan — the first nonempty `@`-separated
segment of a compound key contains no `@` — so it resolves only through the
exact compound-key lookup. -/
theorem scoped_dependency_exact_match_only (pkg : Str) (h : pkg.head? = some '@') :
    (∀ key, fallbackMatches pkg key = false)
    ∧ (∀ lock range, resolveOne lock pkg range = lookupLock lock (pkg ++ '@' :: range)) := by
  have hfm : ∀ key, fallbackMatches pkg key = false := fallbackMatches_scoped_false pkg h
  refine ⟨hfm, ?_⟩
  intro lock range
  unfold resolveOne
  cases hlk : lookupLock lock (pkg ++ '@' :: range) with
  | some v => rfl
  | none =>
    have hfold : ∀ (l : List (Str × Str)) (acc : Option Str),
        l.foldl (fun acc e => if fallbackMatches pkg e.1 then some e.2 else acc) acc = acc := by
      intro l
      induction l with
      | nil => intro acc; rfl
      | cons e t ih =>
        intro acc
        simp only [List.foldl_cons]
        rw [if_neg (by simp [hfm e.1])]
        exact ih acc
    exact hfold lock none

/-- Witness for C10 at the scoped package `@s/p`. -/
theorem scoped_dependency_exact_match_only_witness :
    resolveOne [("@s/p@^1.0.0".toList, "1.0.2".toList)] "@s/p".toList "^1.0.0".toList
      = lookupLock [("@s/p@^1.0.0".toList, "1.0.2".toList)]
          ("@s/p".toList ++ '@' :: "^1.0.0".toList) :=
  (scoped_dependency_exact_match_only "@s/p".toList (by decide)).2 _ _

theorem emitUpdate_eq_some_iff (fetch : Str → Option RegistryInfo)
    (hasReleases : Str → Bool) (pc : Str × Str) (r : UpdateRecord) :
    emitUpdate fetch hasReleases pc = some r ↔
      ∃ info, fetch pc.1 = some info ∧ info.latestVersion ≠ normalizeVersion pc.2 ∧
        r = { pkg := pc.1, currentVersion := normalizeVersion pc.2,
              latestVersion := info.latestVersion,
              docUrl := resolveDocUrl pc.1 info hasReleases } := by
  unfold emitUpdate
  cases hf : fetch pc.1 with
  | none => simp
  | some info =>
    by_cases hne : info.latestVersion ≠ normalizeVersion pc.2
    · simp [hne, eq_comm]
    · simp [hne]

/-- C6: a record is emitted for a dependency exactly when its registry
fetch succeeded and the registry latest version differs from the normalized
current version; a failed fetch drops only that package (every other entry
with a successful, differing fetch is still emitted), every emitted record
has `currentVersion ≠ latestVersion`, and when every dependency is current
the output is empty. -/
theorem getDependencyUpdates_spec (deps : List (Str × Str))
    (fetch : Str → Option RegistryInfo) (hasReleases : Str → Bool) :
    (∀ r ∈ getDependencyUpdates deps fetch hasReleases,
      r.currentVersion ≠ r.latestVersion)
    ∧ (∀ p c, (p, c) ∈ deps → ∀ info, fetch p = some info →
        info.latestVersion ≠ normalizeVersion c →
        ({ pkg := p, currentVersion := normalizeVersion c,
           latestVersion := info.latestVersion,
           docUrl := resolveDocUrl p info hasReleases } : UpdateRecord)
          ∈ getDependencyUpdates deps fetch hasReleases)
    ∧ (∀ r ∈ getDependencyUpdates deps fetch hasReleases,
        ∃ p c info, (p, c) ∈ deps ∧ fetch p = some info
          ∧ info.latestVersion ≠ normalizeVersion c
          ∧ r = { pkg := p, currentVersion := normalizeVersion c,
                  latestVersion := info.latestVersion,
                  docUrl := resolveDocUrl p info hasReleases })
    ∧ ((∀ p c, (p, c) ∈ deps → ∀ info, fetch p = some info →
          info.latestVersion = normalizeVersion c) →
        getDependencyUpdates deps fetch hasReleases = []) := by
  refine ⟨?_, ?_, ?_, ?_⟩
  · intro r hr
    rw [getDependencyUpdates, List.mem_filterMap] at hr
    obtain ⟨pc, hpc, he⟩ := hr
    rw [emitUpdate_eq_some_iff] at he
    obtain ⟨info, hf, hne, rfl⟩ := he
    exact fun h => hne h.symm
  · intro p c hpc info hf hne
    rw [getDependencyUpdates, List.mem_filterMap]
    exact ⟨(p, c), hpc, (emitUpdate_eq_some_iff fetch hasReleases (p, c) _).2
      ⟨info, hf, hne, rfl⟩⟩
  · intro r hr
    rw [getDependencyUpdates, List.mem_filterMap] at hr
    obtain ⟨pc, hpc, he⟩ := hr
    rw [emitUpdate_eq_some_iff] at he
    obtain ⟨info, hf, hne, rfl⟩ := he
    exact ⟨pc.1, pc.2, info, by simpa using hpc, hf, hne, rfl⟩
  · intro hall
    rw [getDependencyUpdates, List.filterMap_eq_nil_iff]
    intro pc hpc
    unfold emitUpdate
    cases hf : fetch pc.1 with
    | none => rfl
    | some info =>
      have : info.latestVersion = normalizeVersion pc.2 :=
        hall pc.1 pc.2 (by simpa using hpc) info hf
      simp [this]

/-- Witness for C6: with `a@^1.0.0` fetching latest `2.0.0` and `b`'s fetch
failing, the batch still emits the record for `a`. -/
theorem getDependencyUpdates_spec_witness :
    ({ pkg := "a".toList, currentVersion := normalizeVersion "^1.0.0".toList,
       latestVersion := ("2.0.0".toList : Str),
       docUrl := resolveDocUrl "a".toList
         ⟨"2.0.0".toList, none, none⟩ (fun _ => false) } : UpdateRecord)
      ∈ getDependencyUpdates [("a".toList, "^1.0.0".toList), ("b".toList, "1.0.0".toList)]
          (fun s => if s == "a".toList then some ⟨"2.0.0".toList, none, none⟩ else none)
          (fun _ => false) :=
  (getDependencyUpdates_spec
    [("a".toList, "^1.0.0".toList), ("b".toList, "1.0.0".toList)]
    (fun s => if s == "a".toList then some ⟨"2.0.0".toList, none, none⟩ else none)
    (fun _ => false)).2.1 "a".toList "^1.0.0".toList (by decide)
    ⟨"2.0.0".toList, none, none⟩ (by decide) (by decide)

/-- C1 is false on the code: with a repository URL present and truthy, the
releases probe reporting no releases, and a homepage present, the resolved
doc URL is the constructed npm package-versions page, not the homepage. -/
theorem docUrl_skips_homepage_when_repo_present_cex :
    resolveDocUrl "widget".toList
      ⟨"2.0.0".toList, some "https://github.com/acme/widget".toList,
        some "https://widget.example".toList⟩ (fun _ => false)
      = npmVersionsUrl "widget".toList
    ∧ npmVersionsUrl "widget".toList ≠ "https://widget.example".toList := by decide

/-- C1 (amended): when the repository URL is present and normalizes to a
nonempty string, a probe reporting no releases (or failing) resolves the
npm package-versions page — the homepage is never consulted in that case;
the homepage is used exactly when no truthy repository URL exists and the
homepage is truthy, and the npm page is used when neither is available
(releases present resolve `<repo>/releases`). -/
theorem resolveDocUrl_fallback_chain (pkg : Str) (info : RegistryInfo)
    (hasReleases : Str → Bool) :
    (∀ u, info.repositoryUrl = some u → u ≠ [] → normalizeRepoUrl u ≠ [] →
      hasReleases (normalizeRepoUrl u) = false →
      resolveDocUrl pkg info hasReleases = npmVersionsUrl pkg)
    ∧ (∀ u, info.repositoryUrl = some u → u ≠ [] → normalizeRepoUrl u ≠ [] →
      hasReleases (normalizeRepoUrl u) = true →
      resolveDocUrl pkg info hasReleases = normalizeRepoUrl u ++ "/releases".toList)
    ∧ (∀ h, jsTruthy info.repositoryUrl = false → info.homepageUrl = some h → h ≠ [] →
      resolveDocUrl pkg info hasReleases = h)
    ∧ (jsTruthy info.repositoryUrl = false → jsTruthy info.homepageUrl = false →
      resolveDocUrl pkg info hasReleases = npmVersionsUrl pkg) := by
  refine ⟨?_, ?_, ?_, ?_⟩
  · intro u hu hne hnn hrel
    simp [resolveDocUrl, hu, jsTruthy, hne, hnn, hrel]
  · intro u hu hne hnn hrel
    simp [resolveDocUrl, hu, jsTruthy, hne, hnn, hrel]
  · intro h hr hh hhe
    simp only [resolveDocUrl]
    rw [hr]
    simp [hh, jsTruthy, hhe]
  · intro hr hh
    simp only [resolveDocUrl]
    rw [hr, hh]
    simp

/-- Witness for C1 (amended): no repository URL, homepage present — the
homepage is resolved. -/
theorem resolveDocUrl_fallback_chain_witness :
    resolveDocUrl "w".toList ⟨"2.0.0".toList, none, some "https://h.example".toList⟩
      (fun _ => false) = "https://h.example".toList :=
  (resolveDocUrl_fallback_chain "w".toList
    ⟨"2.0.0".toList, none, some "https://h.example".toList⟩
    (fun _ => false)).2.2.1 "https://h.example".toList rfl rfl (by decide)

theorem isPrefixOf_append_self (a b : Str) : a.isPrefixOf (a ++ b) = true := by
  induction a with
  | nil => simp [List.isPrefixOf]
  | cons c t ih => simp [List.isPrefixOf, ih]

theorem replaceFirst_append (pat rep s : Str) (h : pat ≠ []) :
    replaceFirst pat rep (pat ++ s) = rep ++ s := by
  cases pat with
  | nil => exact absurd rfl h
  | cons c t =>
    have hpre := isPrefixOf_append_self (c :: t) s
    rw [List.cons_append] at hpre
    rw [List.cons_append, replaceFirst, if_pos hpre, ← List.cons_append]
    simp [List.drop_left]

theorem t_prefix_ext (r : Str) (h : ['t'].isPrefixOf r = false) :
    ['t'].isPrefixOf (r ++ ".git".toList) = false := by
  cases r with
  | nil => decide
  | cons d s => simpa [List.isPrefixOf] using h

theorem it_prefix_ext (r : Str) (h : ['i', 't'].isPrefixOf r = false) :
    ['i', 't'].isPrefixOf (r ++ ".git".toList) = false := by
  cases r with
  | nil => decide
  | cons b s =>
    simp only [List.cons_append, List.isPrefixOf] at h ⊢
    by_cases hb : ('i' == b) = true
    · simp only [hb, Bool.true_and] at h ⊢
      exact t_prefix_ext s h
    · simp [hb]

theorem git_prefix_ext (r : Str) (h : ['g', 'i', 't'].isPrefixOf r = false) :
    ['g', 'i', 't'].isPrefixOf (r ++ ".git".toList) = false := by
  cases r with
  | nil => decide
  | cons b s =>
    simp only [List.cons_append, List.isPrefixOf] at h ⊢
    by_cases hb : ('g' == b) = true
    · simp only [hb, Bool.true_and] at h ⊢
      exact it_prefix_ext s h
    · simp [hb]

theorem dotgit_prefix_ext (c : Char) (r : Str)
    (h : ".git".toList.isPrefixOf (c :: r) = false) :
    ".git".toList.isPrefixOf (c :: (r ++ ".git".toList)) = false := by
  have e : ".git".toList = '.' :: 'g' :: 'i' :: 't' :: [] := rfl
  rw [e] at h ⊢
  simp only [List.isPrefixOf] at h ⊢
  by_cases hc : ('.' == c) = true
  · simp only [hc, Bool.true_and] at h ⊢
    have h2 := git_prefix_ext r h
    rw [e] at h2
    exact h2
  · simp [hc]

theorem replaceFirst_dotgit_trailing (u : Str)
    (h : hasSubstr ".git".toList u = false) :
    replaceFirst ".git".toList [] (u ++ ".git".toList) = u := by
  induction u with
  | nil => decide
  | cons c t ih =>
    rw [hasSubstr, Bool.or_eq_false_iff] at h
    obtain ⟨h1, h2⟩ := h
    rw [List.cons_append, replaceFirst, if_neg ?hne]
    case hne =>
      rw [dotgit_prefix_ext c t h1]
      exact Bool.false_ne_true
    rw [ih h2]

/-- C7 is false on the code: the transport rewriting is hard-coded to the
host `github.com`. The `git@host:` form with host `gitlab.com` (which the
`git+`/`.git` stripping leaves untouched) passes through unchanged instead
of being rewritten to `https://gitlab.com/a/b`. -/
theorem convertSshUrlToHttps_nonGithub_cex :
    normalizeRepoUrl "git@gitlab.com:a/b".toList = "git@gitlab.com:a/b".toList
    ∧ "git@gitlab.com:a/b".toList ≠ "https://gitlab.com/a/b".toList := by decide

/-- C7 (amended): the normalization removes the first occurrence of `git+`
(in particular a leading marker) and the first occurrence of `.git` (the
trailing suffix whenever `.git` occurs nowhere earlier), rewrites the three
transport forms to `https://github.com/...` for the host `github.com` only,
and passes every string matching none of the three `github.com` transport
prefixes through `convertSshUrlToHttps` unchanged. -/
theorem urlNormalization_github_only (p s u : Str) :
    convertSshUrlToHttps ("ssh://git@github.com/".toList ++ p)
        = "https://github.com/".toList ++ p
    ∧ convertSshUrlToHttps ("git@github.com:".toList ++ p)
        = "https://github.com/".toList ++ p
    ∧ convertSshUrlToHttps ("git://github.com/".toList ++ p)
        = "https://github.com/".toList ++ p
    ∧ ("ssh://git@github.com/".toList.isPrefixOf s = false →
       "git@github.com:".toList.isPrefixOf s = false →
       "git://github.com/".toList.isPrefixOf s = false →
       convertSshUrlToHttps s = s)
    ∧ replaceFirst "git+".toList [] ("git+".toList ++ u) = u
    ∧ (hasSubstr ".git".toList u = false →
       replaceFirst ".git".toList [] (u ++ ".git".toList) = u) := by
  refine ⟨?_, ?_, ?_, ?_, ?_, replaceFirst_dotgit_trailing u⟩
  · rw [convertSshUrlToHttps, if_pos (isPrefixOf_append_self _ p)]
    exact replaceFirst_append _ _ p (by simp)
  · rw [convertSshUrlToHttps,
      if_neg (by simp [List.isPrefixOf]), if_pos (isPrefixOf_append_self _ p)]
    exact replaceFirst_append _ _ p (by simp)
  · rw [convertSshUrlToHttps,
      if_neg (by simp [List.isPrefixOf]), if_neg (by simp [List.isPrefixOf]),
      if_pos (isPrefixOf_append_self _ p)]
    exact replaceFirst_append _ _ p (by simp)
  · intro h1 h2 h3
    rw [convertSshUrlToHttps, if_neg (by rw [h1]; exact Bool.false_ne_true),
      if_neg (by rw [h2]; exact Bool.false_ne_true),
      if_neg (by rw [h3]; exact Bool.false_ne_true)]
  · exact replaceFirst_append _ _ u (by simp)

/-- Witness for C7 (amended): pass-through of a non-GitHub URL and trailing
`.git` stripping at a concrete input. -/
theorem urlNormalization_github_only_witness :
    convertSshUrlToHttps "https://gitlab.com/a/b".toList = "https://gitlab.com/a/b".toList
    ∧ replaceFirst ".git".toList [] ("https://gitlab.com/a/b".toList ++ ".git".toList)
        = "https://gitlab.com/a/b".toList :=
  ⟨(urlNormalization_github_only [] "https://gitlab.com/a/b".toList []).2.2.2.1
      (by decide) (by decide) (by decide),
   (urlNormalization_github_only [] [] "https://gitlab.com/a/b".toList).2.2.2.2.2
      (by decide)⟩
